import Mathlib

/-!
Verification of the `zotero-proxy` server (`server.py`) of the
overleaf-lab repository.  The Python code is shallowly embedded:

* text is `List Char` (`LC`), so that Python's `str.split`, `str.strip`
  and `str.join` become executable Lean functions with provable
  specifications;
* fallible Python code (statements that can raise) is embedded as
  `Option`/`Except` returning functions, `none`/`.error` marking the
  raised exception;
* Python's unbounded recursion (`add_collection`) is embedded with an
  explicit fuel parameter: `none` on fuel exhaustion corresponds to the
  interpreter's `RecursionError`;
* network calls are abstracted as oracle functions passed as arguments
  (a response per page start, a resolution result per path, a body per
  collection id); `asyncio.gather` keeps the results in dispatch order,
  which the embedding reflects by mapping over the dispatched list.
-/

set_option autoImplicit false
set_option maxHeartbeats 1000000
set_option maxRecDepth 8192

namespace ZoteroProxy

/-- Text as a list of characters. -/
abbrev LC := List Char

/-- View of a string literal as a character list. -/
def strL (s : String) : LC := s.data

/-- CPython `str.isspace()`: the characters `str.strip()` removes.
The set is U+0009-U+000D, U+001C-U+001F, U+0020, U+0085, U+00A0,
U+1680, U+2000-U+200A, U+2028, U+2029, U+202F, U+205F and U+3000. -/
def pyIsSpace (c : Char) : Bool :=
  let n := c.toNat
  (9 <= n && n <= 13) || (28 <= n && n <= 32) || n == 0x85 || n == 0xA0 ||
    n == 0x1680 || (0x2000 <= n && n <= 0x200A) || n == 0x2028 ||
    n == 0x2029 || n == 0x202F || n == 0x205F || n == 0x3000

/-- Left part of Python `str.strip()`: drop leading whitespace. -/
def trimLeft (l : LC) : LC := l.dropWhile pyIsSpace

/-- Right part of Python `str.strip()`: drop trailing whitespace. -/
def trimRight (l : LC) : LC := (l.reverse.dropWhile pyIsSpace).reverse

/-- Python `str.strip()`. -/
def trimL (l : LC) : LC := trimRight (trimLeft l)

/-- Worker for Python `str.split(sep)` (leftmost, non-overlapping
occurrences).  The `Nat` argument is the number of separator characters
still to be skipped after a match; recursion is structural in the
string, so the function evaluates by `decide`. -/
def splitGo (sep : LC) : Nat → LC → List LC
  | _, [] => [[]]
  | k+1, _ :: rest => splitGo sep k rest
  | 0, c :: rest =>
    if sep.isPrefixOf (c :: rest) then
      [] :: splitGo sep (sep.length - 1) rest
    else
      match splitGo sep 0 rest with
      | [] => [[c]]
      | h :: t => (c :: h) :: t

/-- Python `s.split(sep)` for a non-empty separator. -/
def pySplit (sep s : LC) : List LC := splitGo sep 0 s

/-- Python `sep.join(parts)`. -/
def joinSep (sep : LC) : List LC → LC
  | [] => []
  | [x] => x
  | x :: y :: t => x ++ sep ++ joinSep sep (y :: t)

/-- The entry boundary `"\n\n@"` used by `remove_duplicates`. -/
def entrySep : LC := ['\n', '\n', '@']

/-- A blank-line separator `"\n\n"`. -/
def nl2 : LC := ['\n', '\n']

/-- `entry.split(brace)[1].split(",")[0]` of `remove_duplicates`:
`none` models the `IndexError` raised when the entry has no `"\x7b"`. -/
def bibKey (entry : LC) : Option LC :=
  match pySplit ['\x7b'] entry with
  | _ :: p1 :: _ => some ((pySplit [','] p1).headD [])
  | _ => none

/-- The per-fragment normalization of the `remove_duplicates` loop
(server.py lines 310-314): `entry = entry.strip()`; an empty entry is
skipped (`none`); the `"@"` marker consumed by the split is
re-attached when missing. -/
def normalizeFrag (fragment : LC) : Option LC :=
  let e := trimL fragment
  if e = [] then none
  else some (if e.head? = some '@' then e else '@' :: e)

/-- The loop of `remove_duplicates` (server.py lines 309-323).
State: `all_keys`, `all_entries` (sets, embedded as lists since only
membership is tested) and the remaining fragments; returns the `result`
list, `none` when the key extraction raises. -/
def dedupGo : List LC → List LC → List LC → Option (List LC)
  | _, _, [] => some []
  | all_keys, all_entries, fragment :: rest =>
    match normalizeFrag fragment with
    | none => dedupGo all_keys all_entries rest
    | some e =>
      match bibKey e with
      | none => none
      | some k =>
        if e ∈ all_entries then dedupGo all_keys all_entries rest
        else
          match dedupGo (k :: all_keys) (e :: all_entries) rest with
          | none => none
          | some res => some (e :: res)

/-- `remove_duplicates` (server.py lines 300-328): split the
bibliography on `"\n\n@"`, normalize fragments, keep the first
occurrence of each exact text, rejoin with blank lines.  `none` models
the `IndexError` escaping the function. -/
def remove_duplicates (bibliography : LC) : Option LC :=
  (dedupGo [] [] (pySplit entrySep bibliography)).map (joinSep nl2)

example : pySplit entrySep (strL "@x\x7ba,1\x7d\n\n@@ y\x7bb,2\x7d") =
    [strL "@x\x7ba,1\x7d", strL "@ y\x7bb,2\x7d"] := by decide

example : remove_duplicates (strL "@x\x7ba,1\x7d\n\n@@ y\x7bb,2\x7d") =
    some (strL "@x\x7ba,1\x7d\n\n@ y\x7bb,2\x7d") := by decide

example : remove_duplicates (strL "@x\x7ba,1\x7d\n\n@ y\x7bb,2\x7d") =
    some (strL "@x\x7ba,1\x7d\n\n@y\x7bb,2\x7d") := by decide

example : remove_duplicates (strL "hello\n\n@x\x7ba,1\x7d") = none := by decide

example : remove_duplicates (strL "@y\x7bab\x7d") = some (strL "@y\x7bab\x7d") := by
  decide

example : remove_duplicates (strL "@x\x7ba,1\x7d\n\n@\x0by\x7bb,2\x7d") =
    some (strL "@x\x7ba,1\x7d\n\n@y\x7bb,2\x7d") := by decide

example : remove_duplicates (strL "\x0b") = some (strL "") := by decide

example : remove_duplicates (strL "@x\x7ba,1\x7d\n\n@\xa0y\x7bb,2\x7d") =
    some (strL "@x\x7ba,1\x7d\n\n@y\x7bb,2\x7d") := by decide

/-! ### Collection index (class `Collections`, server.py lines 88-173)

A Python `dict` is embedded as an association list in insertion order:
assigning to an existing key updates it in place, assigning to a new
key appends. -/

/-- Python `dict[k] = v` on an insertion-ordered dictionary. -/
def dictInsert {β : Type} (d : List (LC × β)) (k : LC) (v : β) : List (LC × β) :=
  if d.any (fun p => p.1 = k) then
    d.map (fun p => if p.1 = k then (k, v) else p)
  else d ++ [(k, v)]

/-- Python `dict.get`-style first lookup (`dict[k]` returning `none` for
a `KeyError`). -/
def dictGet {β : Type} (d : List (LC × β)) (k : LC) : Option β :=
  (d.find? (fun p => p.1 = k)).map (fun p => p.2)

/-- One element of the raw collection listing fetched from the remote
API: `collection["key"]` and `collection["data"]`'s `name` and
`parentCollection` fields.  `none` for `parentCollection` models the
falsy value (`false`) the API uses for a root collection. -/
structure RawCollection where
  key : LC
  name : LC
  parentCollection : Option LC
deriving DecidableEq, Repr

/-- `get_collection_data` (server.py lines 106-109): first raw
collection with the given key, `none` when the loop falls through. -/
def get_collection_data (raw : List RawCollection) (collection_id : LC) :
    Option RawCollection :=
  raw.find? (fun c => c.key = collection_id)

/-- `get_collection_name` (server.py lines 111-114): first name mapped
to the given id in the (insertion-ordered) collections dict, `none`
when the loop falls through. -/
def get_collection_name (collections : List (LC × LC)) (collection_id : LC) :
    Option LC :=
  (collections.find? (fun p => p.2 = collection_id)).map (fun p => p.1)

/-- `add_collection` (server.py lines 116-127).  The fuel parameter
models the interpreter's recursion limit: `none` is a
`RecursionError`.  Note the guard `if collection_id in collections`
tests the id against the dict's *keys*, which are collection names.
When `get_collection_name` returns `None`, the f-string
`f"\x7bparent_name\x7d/\x7bdata['name']\x7d"` renders it as the text
`"None"`, which the embedding reproduces with `getD`. -/
def add_collection (raw : List RawCollection) :
    Nat → List (LC × LC) → LC → Option (List (LC × LC))
  | 0, _, _ => none
  | fuel+1, collections, collection_id =>
    if collections.any (fun p => p.1 = collection_id) then some collections
    else
      match get_collection_data raw collection_id with
      | none => some collections
      | some data =>
        match data.parentCollection with
        | some parent =>
          match add_collection raw fuel collections parent with
          | none => none
          | some collections1 =>
            let parent_name := (get_collection_name collections1 parent).getD
              (strL "None")
            some (dictInsert collections1
              (parent_name ++ ['/'] ++ data.name) data.key)
        | none => some (dictInsert collections data.name data.key)

/-- The path-building loop of `update_from_remote` (server.py lines
129-130): fold `add_collection` over the raw listing, starting from an
empty dict. -/
def build_collections (raw : List RawCollection) (fuel : Nat) :
    Option (List (LC × LC)) :=
  raw.foldlM (fun collections c => add_collection raw fuel collections c.key) []

/-- The per-entity cache `Collections.data`: entity id to path-to-id
dict. -/
abbrev Store := List (LC × List (LC × LC))

/-- `Collections.update_from_remote` (server.py lines 94-132) after the
raw listing has been fetched and JSON-decoded: build the full
replacement dict, then publish it with the single assignment
`self.data[group_id] = collections`.  `none` propagates the error of a
failed build, in which case the assignment never executes. -/
def update_from_remote (store : Store) (group_id : LC)
    (raw : List RawCollection) (fuel : Nat) : Option Store :=
  (build_collections raw fuel).map (fun collections =>
    dictInsert store group_id collections)

/-- The query part of `Collections.get_collection_children` (server.py
lines 155-173), evaluated on the per-entity dict after the freshness
check: `none` collection id returns the whole listing, a known id
returns the entries whose path extends the id's resolved name by `/`;
`none` as a result models the `ValueError`. -/
def get_collection_children_cached (data : List (LC × LC))
    (collection_id : Option LC) : Option (List (LC × LC)) :=
  match collection_id with
  | none => some data
  | some cid =>
    if cid ∈ data.map (fun p => p.2) then
      match get_collection_name data cid with
      | some collection_name =>
        some (data.filter (fun p => (collection_name ++ ['/']).isPrefixOf p.1))
      | none => none
    else none

example :
    build_collections
      [⟨strL "K1", strL "A", none⟩, ⟨strL "K2", strL "B", some (strL "K1")⟩,
       ⟨strL "K3", strL "C", some (strL "K2")⟩] 9 =
    some [(strL "A", strL "K1"), (strL "A/B", strL "K2"),
          (strL "A/B/C", strL "K3")] := by decide

example :
    build_collections
      [⟨strL "K3", strL "C", some (strL "K2")⟩, ⟨strL "K2", strL "B", some (strL "K1")⟩,
       ⟨strL "K1", strL "A", none⟩] 9 =
    some [(strL "A", strL "K1"), (strL "A/B", strL "K2"),
          (strL "A/B/C", strL "K3")] := by decide

example :
    build_collections [⟨strL "K1", strL "K2", none⟩, ⟨strL "K2", strL "Q", none⟩] 9 =
    some [(strL "K2", strL "K1")] := by decide

example :
    build_collections [⟨strL "K1", strL "A", some (strL "KX")⟩] 9 =
    some [(strL "None/A", strL "K1")] := by decide

/-! ### `_zotero_batched_request` (server.py lines 38-85)

The network is abstracted: the synchronous first page is an explicit
`ZResponse` and every follow-up page is given by an oracle from its
`start` parameter.  `asyncio.gather(*tasks)` returns the responses in
the order the tasks were created, which the embedding reflects by
mapping the oracle over the dispatched start list. -/

/-- One remote response: HTTP status, the `Total-Results` header and
the body text. -/
structure ZResponse where
  status : Nat
  totalResults : Nat
  body : LC
deriving DecidableEq, Repr

/-- `_zotero_response_is_ok` (server.py lines 23-35). -/
def zotero_response_is_ok (response : ZResponse) : Bool :=
  response.status = 200

/-- Python `range(start, stop, step)` for a positive step. -/
def pyRange3 (start stop step : Nat) : List Nat :=
  List.range' start ((stop - start + step - 1) / step) step

/-- The `next_pages` start values (server.py lines 61-63):
`range(limit, int(total_entries), limit)`. -/
def nextPageStarts (limit total : Nat) : List Nat := pyRange3 limit total limit

/-- `_zotero_batched_request` (server.py lines 38-85): abort on a
non-200 first page, otherwise collect the first body followed by the
bodies of the concurrently dispatched pages in dispatch order,
dropping each non-200 page. -/
def zotero_batched_request (limit : Nat) (first : ZResponse)
    (fetch : Nat → ZResponse) : List LC :=
  if zotero_response_is_ok first then
    first.body ::
      ((nextPageStarts limit first.totalResults).map fetch).filterMap
        (fun r => if zotero_response_is_ok r then some r.body else none)
  else []

example : nextPageStarts 100 250 = [100, 200] := by decide

/-! ### `Config` (server.py lines 179-266) -/

/-- The environment variables read by `Config.from_environment`;
`none` means the variable is unset. -/
structure Env where
  zotero_group : Option LC
  zotero_user : Option LC
  zotero_key : Option LC
  zotero_format : Option LC
  zotero_inclusion_strategy : Option LC
deriving DecidableEq, Repr

/-- The query parameters read by `Config.update_from_request`; `none`
means the parameter is absent from the request. -/
structure QueryParams where
  group_id : Option LC
  key : Option LC
  format : Option LC
  inclusion_strategy : Option LC
  collection_id : Option LC
deriving DecidableEq, Repr

/-- The `Config` dataclass (server.py lines 179-187). -/
structure Config where
  group_id : Option LC := none
  key : Option LC := none
  result_format : Option LC := none
  collection_id : Option LC := none
  only_self : Bool := false
  failed_collection_lookup : Bool := false
  is_user : Bool := false
deriving DecidableEq, Repr

/-- Python truthiness of an optional string: `None` and `""` are
falsy. -/
def falsyS : Option LC → Bool
  | none => true
  | some s => s.isEmpty

/-- `Config.from_environment` (server.py lines 189-211). -/
def Config.from_environment (env : Env) : Config :=
  let inclusion_strategy := env.zotero_inclusion_strategy.getD []
  let only_self := inclusion_strategy = strL "only-self"
  let group_id := env.zotero_group
  if falsyS group_id then
    { group_id := env.zotero_user
      key := env.zotero_key
      result_format := some (env.zotero_format.getD (strL "bibtex"))
      collection_id := none
      only_self := only_self
      is_user := true }
  else
    { group_id := group_id
      key := env.zotero_key
      result_format := some (env.zotero_format.getD (strL "bibtex"))
      collection_id := none
      only_self := only_self
      is_user := false }

/-- `Config.is_valid` (server.py lines 247-266): the format check only
logs a warning and does not affect the result. -/
def Config.is_valid (cfg : Config) : Bool :=
  !falsyS cfg.group_id && !falsyS cfg.key

/-- The error raised by `Config.update_from_request`. -/
inductive UpdateError where
  | invalidConfig
deriving DecidableEq, Repr

/-- The field updates of `Config.update_from_request` (server.py lines
215-223): `query_parameters.get(k, current)` keeps the current value
only when the parameter is absent, and a present `inclusion_strategy`
recomputes `only_self`. -/
def Config.merge_request (cfg : Config) (qp : QueryParams) : Config :=
  let cfg := { cfg with
    group_id := match qp.group_id with
      | some v => some v
      | none => cfg.group_id
    key := match qp.key with
      | some v => some v
      | none => cfg.key
    result_format := match qp.format with
      | some v => some v
      | none => cfg.result_format }
  match qp.inclusion_strategy with
  | some v => { cfg with only_self := v = strL "only-self" }
  | none => cfg

/-- `Config.update_from_request` (server.py lines 213-245).  The
collection-name lookup `COLLECTIONS.get_collection_id` (which may
refresh the index from the network) is abstracted by the `resolve`
oracle; `none` models the `KeyError` that is caught and turned into
`failed_collection_lookup = True`. -/
def Config.update_from_request (cfg0 : Config) (path : LC) (qp : QueryParams)
    (resolve : LC → Option LC) : Except UpdateError Config :=
  let cfg := cfg0.merge_request qp
  if cfg.is_valid then
    if !falsyS qp.collection_id then
      .ok { cfg with collection_id := qp.collection_id }
    else if path = [] then
      .ok { cfg with collection_id := none }
    else
      match resolve path with
      | some cid => .ok { cfg with collection_id := some cid }
      | none => .ok { cfg with failed_collection_lookup := true }
  else .error .invalidConfig

/-! ### The GET handler `main` (server.py lines 337-410)

The handler is embedded as a pure function of the environment, the
request (path, query parameters, the `remove_comments` flag) and three
oracles abstracting the awaited calls: `resolve` for
`COLLECTIONS.get_collection_id`, `children` for the result of
`COLLECTIONS.get_collection_children` and `fetch` for
`get_bibliography` (indexed by the optional collection id).  The
per-request log is a list of messages; timestamps, level prefixes and
traceback framing of the real log records are elided, keeping only the
message text, and the request-configuration info block is condensed to
its heading line. -/

/-- A response: Flask's `Response(result, mimetype="text/plain")` has
status 200. -/
structure HResp where
  status : Nat
  body : LC
deriving DecidableEq, Repr

/-- The message of the `ValueError` raised on a failed collection
lookup (server.py line 363). -/
def lookupFailMsg (path : LC) : LC :=
  strL "Failed to look up collection ID for path '" ++ path ++ strL "'"

/-- `textwrap.indent(logs, prefix="% ")`: each log message on its own
line with the comment prefix. -/
def indentLogs (logs : List LC) : LC :=
  (logs.map (fun m => strL "% " ++ m ++ ['\n'])).flatten

/-- The response assembly at the end of `main` (server.py lines
406-410). -/
def mkResp (remove_comments : Bool) (logs : List LC) (bibliography : LC) : HResp :=
  { status := 200
    body := if remove_comments then bibliography
            else indentLogs logs ++ nl2 ++ bibliography }

/-- The GET handler `main` (server.py lines 337-410).  Every exception
inside the `try` block is caught; `bibliography` keeps the value it
had when the exception was raised (the empty string before the
fetches, the raw concatenation when `remove_duplicates` raises). -/
def mainHandler (env : Env) (path : LC) (qp : QueryParams)
    (remove_comments : Bool) (resolve : LC → Option LC)
    (children : List (LC × LC)) (fetch : Option LC → LC) : HResp :=
  match Config.update_from_request (Config.from_environment env) path qp resolve with
  | .error .invalidConfig =>
    mkResp remove_comments
      [strL "An error occurred", strL "ValueError: Invalid configuration"] []
  | .ok cfg =>
    let infoLogs := [strL "Using configuration:"]
    if cfg.failed_collection_lookup then
      mkResp remove_comments
        (infoLogs ++ [strL "An error occurred",
          strL "ValueError: " ++ lookupFailMsg path]) []
    else
      let childList :=
        if !cfg.only_self && cfg.collection_id.isSome then children else []
      let bibliographies :=
        fetch cfg.collection_id :: childList.map (fun c => fetch (some c.2))
      let joined := joinSep nl2 bibliographies
      match remove_duplicates joined with
      | some deduped => mkResp remove_comments infoLogs deduped
      | none =>
        mkResp remove_comments
          (infoLogs ++ [strL "An error occurred",
            strL "IndexError: list index out of range"]) joined

/-! ### Auxiliary definitions for the statements -/

/-- Modelled from the spec: keep only the first occurrence of each
exact text ("an entry whose exact text was already seen is dropped").
Used to characterize which entries of the input survive
`remove_duplicates`. -/
def keepFirst : List LC → List LC → List LC
  | _, [] => []
  | seen, e :: rest =>
    if e ∈ seen then keepFirst seen rest else e :: keepFirst (e :: seen) rest

/-- A separator none of whose proper non-empty prefixes is also a
suffix: an occurrence of such a separator can never straddle the
boundary between a separator-free part and the separator itself. -/
def noOverlap (sep : LC) : Prop :=
  ∀ k < sep.length, 0 < k → sep.take (sep.length - k) ≠ sep.drop k

instance (sep : LC) : Decidable (noOverlap sep) := by
  unfold noOverlap
  infer_instance

/-- Condition on a fragment after the first of a `"\n\n@"` split under
which the `remove_duplicates` normalization reproduces the entry it
came from: the fragment starts with a character that is neither `'@'`
nor whitespace. -/
def goodTailFrag (f : LC) : Bool :=
  match f with
  | c :: _ => c ≠ '@' && !pyIsSpace c
  | [] => false

/-- Synthetic root collection `A` (id `K1`). -/
def rawA : RawCollection := ⟨strL "K1", strL "A", none⟩

/-- Synthetic collection `B` (id `K2`, parent `A`). -/
def rawB : RawCollection := ⟨strL "K2", strL "B", some (strL "K1")⟩

/-- Synthetic collection `C` (id `K3`, parent `B`). -/
def rawC : RawCollection := ⟨strL "K3", strL "C", some (strL "K2")⟩

/-- The expected index for `{A, B, C}`. -/
def abcIndex : List (LC × LC) :=
  [(strL "A", strL "K1"), (strL "A/B", strL "K2"), (strL "A/B/C", strL "K3")]

/-- A collection whose parent chain is a cycle (`K1 → K2 → K1`). -/
def rawCycA : RawCollection := ⟨strL "K1", strL "A", some (strL "K2")⟩

/-- The other half of the cycle. -/
def rawCycB : RawCollection := ⟨strL "K2", strL "B", some (strL "K1")⟩

/-! ### Dictionary lemmas -/

theorem dictGet_cons_of_neg {β : Type} (p : LC × β) (d : List (LC × β))
    (g : LC) (h : ¬(p.1 = g)) : dictGet (p :: d) g = dictGet d g := by
  unfold dictGet
  rw [List.find?_cons_of_neg _ (by simpa using h)]

theorem dictGet_cons_of_pos {β : Type} (p : LC × β) (d : List (LC × β))
    (g : LC) (h : p.1 = g) : dictGet (p :: d) g = some p.2 := by
  unfold dictGet
  rw [List.find?_cons_of_pos _ (by simpa using h)]
  rfl

theorem map_subst_of_no_key {β : Type} (d : List (LC × β)) (k : LC) (v : β)
    (hd : ¬(d.any (fun q => q.1 = k) = true)) :
    d.map (fun q => if q.1 = k then (k, v) else q) = d := by
  induction d with
  | nil => rfl
  | cons x xs ihx =>
    have hx : ¬(x.1 = k) := by
      intro e
      exact hd (by simp [List.any_cons, e])
    have hxs : ¬(xs.any (fun q => q.1 = k) = true) := by
      intro e
      exact hd (by simp [List.any_cons, e])
    rw [List.map_cons, if_neg hx, ihx hxs]

theorem dictGet_insert_self {β : Type} (d : List (LC × β)) (k : LC) (v : β) :
    dictGet (dictInsert d k v) k = some v := by
  induction d with
  | nil => simp [dictInsert, dictGet]
  | cons p d ih =>
    by_cases hp : p.1 = k
    · have ha : (p :: d).any (fun q => q.1 = k) = true := by
        simp [List.any_cons, hp]
      unfold dictInsert
      rw [if_pos ha, List.map_cons, if_pos hp]
      exact dictGet_cons_of_pos (k, v) _ k rfl
    · have hcons : ((p :: d).any (fun q => q.1 = k)) =
          (d.any (fun q => q.1 = k)) := by
        simp [List.any_cons, hp]
      by_cases hd : d.any (fun q => q.1 = k) = true
      · unfold dictInsert
        rw [if_pos (hcons.trans hd), List.map_cons, if_neg hp,
          dictGet_cons_of_neg _ _ _ hp]
        unfold dictInsert at ih
        rw [if_pos hd] at ih
        exact ih
      · unfold dictInsert
        rw [if_neg (by rw [hcons]; exact hd), List.cons_append,
          dictGet_cons_of_neg _ _ _ hp]
        unfold dictInsert at ih
        rw [if_neg hd] at ih
        exact ih

theorem dictGet_insert_ne {β : Type} (d : List (LC × β)) (k g : LC) (v : β)
    (h : g ≠ k) : dictGet (dictInsert d k v) g = dictGet d g := by
  have hkv : ¬((k, v).1 = g) := fun e => h (e.symm)
  induction d with
  | nil =>
    unfold dictInsert
    rw [if_neg (by simp), List.nil_append, dictGet_cons_of_neg _ _ _ hkv]
  | cons p d ih =>
    by_cases hp : p.1 = k
    · have ha : (p :: d).any (fun q => q.1 = k) = true := by
        simp [List.any_cons, hp]
      have hpg : ¬(p.1 = g) := by rw [hp]; exact fun e => h e.symm
      unfold dictInsert
      rw [if_pos ha, List.map_cons, if_pos hp, dictGet_cons_of_neg _ _ _ hkv,
        dictGet_cons_of_neg _ _ _ hpg]
      by_cases hd : d.any (fun q => q.1 = k) = true
      · unfold dictInsert at ih
        rw [if_pos hd] at ih
        exact ih
      · rw [map_subst_of_no_key d k v hd]
    · have hcons : ((p :: d).any (fun q => q.1 = k)) =
          (d.any (fun q => q.1 = k)) := by
        simp [List.any_cons, hp]
      by_cases hd : d.any (fun q => q.1 = k) = true
      · unfold dictInsert
        rw [if_pos (hcons.trans hd), List.map_cons, if_neg hp]
        by_cases hpg : p.1 = g
        · rw [dictGet_cons_of_pos _ _ _ hpg, dictGet_cons_of_pos _ _ _ hpg]
        · rw [dictGet_cons_of_neg _ _ _ hpg, dictGet_cons_of_neg _ _ _ hpg]
          unfold dictInsert at ih
          rw [if_pos hd] at ih
          exact ih
      · unfold dictInsert
        rw [if_neg (by rw [hcons]; exact hd), List.cons_append]
        by_cases hpg : p.1 = g
        · rw [dictGet_cons_of_pos _ _ _ hpg, dictGet_cons_of_pos _ _ _ hpg]
        · rw [dictGet_cons_of_neg _ _ _ hpg, dictGet_cons_of_neg _ _ _ hpg]
          unfold dictInsert at ih
          rw [if_neg hd] at ih
          exact ih

/-! ### Claim C2: pagination of `_zotero_batched_request` -/

/-- C2: with page size 100 and a first page of status 200 reporting 250
total results, exactly the two further starts 100 and 200 are
dispatched; the bodies come back in dispatch order, first page first;
and a non-200 status on the page at start 200 drops that page alone,
leaving the other two bodies. -/
theorem batched_request_pagination (first : ZResponse) (fetch : Nat → ZResponse)
    (h200 : first.status = 200) (htot : first.totalResults = 250) :
    nextPageStarts 100 first.totalResults = [100, 200] ∧
    ((fetch 100).status = 200 → (fetch 200).status = 200 →
      zotero_batched_request 100 first fetch =
        [first.body, (fetch 100).body, (fetch 200).body]) ∧
    ((fetch 100).status = 200 → (fetch 200).status ≠ 200 →
      zotero_batched_request 100 first fetch = [first.body, (fetch 100).body]) := by
  rw [htot]
  have hstarts : nextPageStarts 100 250 = [100, 200] := by decide
  refine ⟨hstarts, ?_, ?_⟩
  · intro h1 h2
    unfold zotero_batched_request zotero_response_is_ok
    rw [htot, hstarts, if_pos (by simp [h200])]
    simp [List.filterMap_cons, h1, h2]
  · intro h1 h2
    unfold zotero_batched_request zotero_response_is_ok
    rw [htot, hstarts, if_pos (by simp [h200])]
    simp [List.filterMap_cons, h1, h2]

/-- Witness for C2 at a concrete first page and page oracle. -/
theorem batched_request_pagination_witness :
    zotero_batched_request 100 ⟨200, 250, strL "P0"⟩
      (fun s => if s = 100 then ⟨200, 0, strL "P1"⟩ else ⟨503, 0, strL "P2"⟩) =
      [strL "P0", strL "P1"] :=
  (batched_request_pagination ⟨200, 250, strL "P0"⟩
      (fun s => if s = 100 then ⟨200, 0, strL "P1"⟩ else ⟨503, 0, strL "P2"⟩)
      rfl rfl).2.2 (by decide) (by decide)

/-! ### Claim C3: descendants query on a cached index -/

/-- C3: on a cached per-entity index, the children query with no
collection id returns every (path, id) entry exactly once, and with a
collection id present in the index it returns exactly the entries
whose path starts with the id's resolved name followed by `/`. -/
theorem collection_children_cached_spec (data : List (LC × LC)) :
    (get_collection_children_cached data none = some data ∧
      ((data.map Prod.fst).Nodup → data.Nodup)) ∧
    (∀ cid name, get_collection_name data cid = some name →
      ∃ res, get_collection_children_cached data (some cid) = some res ∧
        ∀ e, e ∈ res ↔ e ∈ data ∧ (name ++ ['/']).isPrefixOf e.1) := by
  constructor
  · exact ⟨rfl, fun hnd => hnd.of_map Prod.fst⟩
  · intro cid name hname
    have hfind : ∃ p, data.find? (fun p => p.2 = cid) = some p := by
      unfold get_collection_name at hname
      cases hf : data.find? (fun p => p.2 = cid) with
      | none => rw [hf] at hname; simp at hname
      | some p => exact ⟨p, rfl⟩
    obtain ⟨p, hf⟩ := hfind
    have hmem : cid ∈ data.map (fun p => p.2) := by
      have hpd : p ∈ data := List.mem_of_find?_eq_some hf
      have hp2 : p.2 = cid := by simpa using List.find?_some hf
      exact List.mem_map.2 ⟨p, hpd, hp2⟩
    refine ⟨data.filter (fun q => (name ++ ['/']).isPrefixOf q.1), ?_, ?_⟩
    · simp only [get_collection_children_cached]
      rw [if_pos hmem, hname]
    · intro e
      simp [List.mem_filter]

/-- Witness for C3 at a concrete three-entry index. -/
theorem collection_children_cached_spec_witness :
    get_collection_children_cached abcIndex none = some abcIndex ∧
    ∃ res, get_collection_children_cached abcIndex (some (strL "K2")) = some res ∧
      ∀ e, e ∈ res ↔ e ∈ abcIndex ∧ (strL "A/B" ++ ['/']).isPrefixOf e.1 := by
  refine ⟨(collection_children_cached_spec abcIndex).1.1, ?_⟩
  exact (collection_children_cached_spec abcIndex).2 (strL "K2") (strL "A/B")
    (by decide)

/-! ### Claim C8: refresh failure keeps the old index, success swaps
wholesale -/

/-- C8: when the path-building of a refresh fails, `update_from_remote`
propagates the error and the store the caller sees is unchanged (the
publishing assignment is never reached); on success, the entity's
entry is replaced in one step by the fully built map — a value of the
raw data alone — and every other entity's entry is untouched. -/
theorem update_from_remote_atomic (store : Store) (group_id : LC)
    (raw : List RawCollection) (fuel : Nat) :
    (build_collections raw fuel = none →
      update_from_remote store group_id raw fuel = none) ∧
    (∀ m, build_collections raw fuel = some m →
      update_from_remote store group_id raw fuel =
        some (dictInsert store group_id m) ∧
      dictGet (dictInsert store group_id m) group_id = some m ∧
      ∀ g, g ≠ group_id →
        dictGet (dictInsert store group_id m) g = dictGet store g) := by
  constructor
  · intro h
    unfold update_from_remote
    rw [h]
    rfl
  · intro m h
    refine ⟨?_, dictGet_insert_self store group_id m, ?_⟩
    · unfold update_from_remote
      rw [h]
      rfl
    · intro g hg
      exact dictGet_insert_ne store group_id g m hg

/-- Witness for C8: a failing refresh (parent cycle) and a successful
refresh at concrete inputs. -/
theorem update_from_remote_atomic_witness :
    update_from_remote [(strL "G", abcIndex)] (strL "G") [rawCycA, rawCycB] 5 =
      none ∧
    update_from_remote [] (strL "G") [rawA, rawB, rawC] 9 =
      some [(strL "G", abcIndex)] := by
  constructor
  · exact (update_from_remote_atomic [(strL "G", abcIndex)] (strL "G")
      [rawCycA, rawCycB] 5).1 (by decide)
  · exact ((update_from_remote_atomic [] (strL "G") [rawA, rawB, rawC] 9).2
      abcIndex (by decide)).1

/-! ### Claim C4: the synthetic A / A-B / A-B-C round trip -/

/-- C4: from the raw set `{A (root), B (parent A), C (parent B)}`, in
every presentation order and for every recursion budget of at least 4,
the built index is exactly `{A ↦ K1, A/B ↦ K2, A/B/C ↦ K3}` (the
insertion order is even the same for all six presentations, because the
recursion inserts ancestors first). -/
theorem build_collections_abc (fuel : Nat) :
    build_collections [rawA, rawB, rawC] (fuel + 4) = some abcIndex ∧
    build_collections [rawA, rawC, rawB] (fuel + 4) = some abcIndex ∧
    build_collections [rawB, rawA, rawC] (fuel + 4) = some abcIndex ∧
    build_collections [rawB, rawC, rawA] (fuel + 4) = some abcIndex ∧
    build_collections [rawC, rawA, rawB] (fuel + 4) = some abcIndex ∧
    build_collections [rawC, rawB, rawA] (fuel + 4) = some abcIndex := by
  refine ⟨?_, ?_, ?_, ?_, ?_, ?_⟩ <;>
    simp +decide [build_collections, add_collection, get_collection_data,
      get_collection_name, dictInsert, rawA, rawB, rawC, abcIndex, strL,
      List.foldlM, List.find?]

/-! ### Claim C7: path derivation on malformed parent chains -/

/-- On the two-element parent cycle, `add_collection` consumes any
finite recursion budget without completing: the embedding's fuel
exhaustion, i.e. the interpreter's `RecursionError`.  The guard
`if collection_id in collections` compares the id against the dict's
keys, which are names, so it never short-circuits the cycle. -/
theorem add_collection_cycle_no_fuel : ∀ fuel,
    add_collection [rawCycA, rawCycB] fuel [] (strL "K1") = none ∧
    add_collection [rawCycA, rawCycB] fuel [] (strL "K2") = none := by
  intro fuel
  induction fuel with
  | zero => exact ⟨rfl, rfl⟩
  | succ n ih =>
    obtain ⟨ih1, ih2⟩ := ih
    simp only [rawCycA, rawCycB, strL] at ih1 ih2
    constructor
    · simp +decide [add_collection, get_collection_data, rawCycA, rawCycB,
        strL, List.find?, ih1, ih2]
    · simp +decide [add_collection, get_collection_data, rawCycA, rawCycB,
        strL, List.find?, ih1, ih2]

/-- C7: the derivation does not short-circuit already-computed paths
and does not reject a revisited in-progress node.  First conjunct: on a
parent cycle the whole build exhausts every finite recursion budget
(the real interpreter dies with `RecursionError` at its stack limit)
instead of stopping at a marker.  Second conjunct: the only
short-circuit the code has fires on a name, not an id — a collection
whose id equals an already-indexed collection's *name* is silently
skipped, so the built index loses it entirely. -/
theorem add_collection_no_memo :
    (∀ fuel, build_collections [rawCycA, rawCycB] fuel = none) ∧
    (∀ fuel, build_collections
        [⟨strL "K1", strL "K2", none⟩, ⟨strL "K2", strL "Q", none⟩] (fuel + 2) =
      some [(strL "K2", strL "K1")]) := by
  constructor
  · intro fuel
    have h1 := (add_collection_cycle_no_fuel fuel).1
    simp only [rawCycA, rawCycB, strL] at h1
    simp [build_collections, List.foldlM, rawCycA, rawCycB, strL, h1]
  · intro fuel
    simp +decide [build_collections, add_collection, get_collection_data,
      get_collection_name, dictInsert, strL, List.foldlM, List.find?]

/-! ### Configuration merge lemmas -/

theorem merge_request_group_id (cfg : Config) (qp : QueryParams) :
    (cfg.merge_request qp).group_id =
      (match qp.group_id with | some v => some v | none => cfg.group_id) := by
  unfold Config.merge_request
  cases qp.inclusion_strategy <;> rfl

theorem merge_request_key (cfg : Config) (qp : QueryParams) :
    (cfg.merge_request qp).key =
      (match qp.key with | some v => some v | none => cfg.key) := by
  unfold Config.merge_request
  cases qp.inclusion_strategy <;> rfl

theorem merge_request_result_format (cfg : Config) (qp : QueryParams) :
    (cfg.merge_request qp).result_format =
      (match qp.format with | some v => some v | none => cfg.result_format) := by
  unfold Config.merge_request
  cases qp.inclusion_strategy <;> rfl

theorem merge_request_only_self (cfg : Config) (qp : QueryParams) :
    (cfg.merge_request qp).only_self =
      (match qp.inclusion_strategy with
       | some v => decide (v = strL "only-self")
       | none => cfg.only_self) := by
  unfold Config.merge_request
  cases qp.inclusion_strategy <;> rfl

/-! ### Claim C5: query parameters override the environment -/

/-- C5: whenever `update_from_request` succeeds, each present query
parameter (entity id, API key, output format, inclusion policy) has
overridden the environment-derived value, and a non-empty
`collection_id` query parameter is taken verbatim — the path resolver
is never consulted (the result is the same for every resolver). -/
theorem update_from_request_overrides (env : Env) (path : LC) (qp : QueryParams)
    (resolve : LC → Option LC) (c : Config)
    (h : Config.update_from_request (Config.from_environment env) path qp resolve
      = .ok c) :
    (∀ v, qp.group_id = some v → c.group_id = some v) ∧
    (∀ v, qp.key = some v → c.key = some v) ∧
    (∀ v, qp.format = some v → c.result_format = some v) ∧
    (∀ v, qp.inclusion_strategy = some v →
      (c.only_self = true ↔ v = strL "only-self")) ∧
    (∀ v, qp.collection_id = some v → v ≠ [] →
      c.collection_id = some v ∧
      ∀ resolve2 : LC → Option LC,
        Config.update_from_request (Config.from_environment env) path qp resolve2
          = .ok c) := by
  unfold Config.update_from_request at h
  by_cases hval : ((Config.from_environment env).merge_request qp).is_valid = true
  case neg =>
    rw [if_neg hval] at h
    simp at h
  rw [if_pos hval] at h
  by_cases hcol : (!falsyS qp.collection_id) = true
  · rw [if_pos hcol] at h
    have hc : { (Config.from_environment env).merge_request qp with
        collection_id := qp.collection_id } = c := by simpa using h
    subst hc
    refine ⟨?_, ?_, ?_, ?_, ?_⟩
    · intro v hv; simp [merge_request_group_id, hv]
    · intro v hv; simp [merge_request_key, hv]
    · intro v hv; simp [merge_request_result_format, hv]
    · intro v hv; simp [merge_request_only_self, hv]
    · intro v hv _
      refine ⟨by simp [hv], ?_⟩
      intro resolve2
      unfold Config.update_from_request
      rw [if_pos hval, if_pos hcol]
  · have hfound : falsyS qp.collection_id = true := by
      simpa using hcol
    have hnone : ∀ v, qp.collection_id = some v → v ≠ [] → False := by
      intro v hv hne
      rw [hv] at hfound
      exact hne (by simpa [falsyS] using hfound)
    rw [if_neg hcol] at h
    have hfields : ∃ c1 : Config,
        c1.group_id = ((Config.from_environment env).merge_request qp).group_id ∧
        c1.key = ((Config.from_environment env).merge_request qp).key ∧
        c1.result_format =
          ((Config.from_environment env).merge_request qp).result_format ∧
        c1.only_self = ((Config.from_environment env).merge_request qp).only_self ∧
        c1 = c := by
      by_cases hpath : path = []
      · rw [if_pos hpath] at h
        exact ⟨{ (Config.from_environment env).merge_request qp with
          collection_id := none }, rfl, rfl, rfl, rfl, by simpa using h⟩
      · rw [if_neg hpath] at h
        cases hres : resolve path with
        | some cid =>
          rw [hres] at h
          exact ⟨{ (Config.from_environment env).merge_request qp with
            collection_id := some cid }, rfl, rfl, rfl, rfl, by simpa using h⟩
        | none =>
          rw [hres] at h
          exact ⟨{ (Config.from_environment env).merge_request qp with
            failed_collection_lookup := true }, rfl, rfl, rfl, rfl,
            by simpa using h⟩
    obtain ⟨c1, h1, h2, h3, h4, rfl⟩ := hfields
    refine ⟨?_, ?_, ?_, ?_, ?_⟩
    · intro v hv; rw [h1, merge_request_group_id, hv]
    · intro v hv; rw [h2, merge_request_key, hv]
    · intro v hv; rw [h3, merge_request_result_format, hv]
    · intro v hv; rw [h4, merge_request_only_self, hv]; simp
    · intro v hv hne
      exact absurd (hnone v hv hne) (fun x => x)

/-- Witness for C5: concrete environment and query parameters where
the query overrides everything and the collection id is taken verbatim
for two different resolvers. -/
theorem update_from_request_overrides_witness :
    ∃ c : Config,
      Config.update_from_request
        (Config.from_environment
          ⟨some (strL "G0"), none, some (strL "K0"), some (strL "bibtex"), none⟩)
        (strL "Papers")
        ⟨some (strL "G1"), some (strL "K1"), some (strL "biblatex"),
          some (strL "only-self"), some (strL "CID")⟩
        (fun _ => some (strL "RESOLVED")) = .ok c ∧
      c.group_id = some (strL "G1") ∧ c.key = some (strL "K1") ∧
      c.result_format = some (strL "biblatex") ∧ c.only_self = true ∧
      c.collection_id = some (strL "CID") ∧
      Config.update_from_request
        (Config.from_environment
          ⟨some (strL "G0"), none, some (strL "K0"), some (strL "bibtex"), none⟩)
        (strL "Papers")
        ⟨some (strL "G1"), some (strL "K1"), some (strL "biblatex"),
          some (strL "only-self"), some (strL "CID")⟩
        (fun _ => none) = .ok c := by
  refine ⟨_, rfl, ?_⟩
  have h := update_from_request_overrides
    ⟨some (strL "G0"), none, some (strL "K0"), some (strL "bibtex"), none⟩
    (strL "Papers")
    ⟨some (strL "G1"), some (strL "K1"), some (strL "biblatex"),
      some (strL "only-self"), some (strL "CID")⟩
    (fun _ => some (strL "RESOLVED")) _ rfl
  refine ⟨h.1 _ rfl, h.2.1 _ rfl, h.2.2.1 _ rfl, ?_, ?_, ?_⟩
  · exact (h.2.2.2.1 _ rfl).2 rfl
  · exact (h.2.2.2.2 _ rfl (by decide)).1
  · exact (h.2.2.2.2 _ rfl (by decide)).2 _

/-! ### Claim C9: validation error exactly for missing id or key -/

/-- C9: `update_from_request` raises the invalid-configuration error
exactly when the merged entity id or the merged API key is falsy (unset
or empty); when both are non-empty the update succeeds whatever the
output format is (an unknown format only logs a warning). -/
theorem update_from_request_invalid_iff (env : Env) (path : LC)
    (qp : QueryParams) (resolve : LC → Option LC) :
    (Config.update_from_request (Config.from_environment env) path qp resolve
        = .error .invalidConfig ↔
      (falsyS ((Config.from_environment env).merge_request qp).group_id = true ∨
       falsyS ((Config.from_environment env).merge_request qp).key = true)) ∧
    (falsyS ((Config.from_environment env).merge_request qp).group_id = false →
      falsyS ((Config.from_environment env).merge_request qp).key = false →
      ∃ c, Config.update_from_request (Config.from_environment env) path qp
        resolve = .ok c) := by
  unfold Config.update_from_request
  by_cases hval : ((Config.from_environment env).merge_request qp).is_valid = true
  · have hfields : falsyS ((Config.from_environment env).merge_request qp).group_id
        = false ∧
        falsyS ((Config.from_environment env).merge_request qp).key = false := by
      unfold Config.is_valid at hval
      constructor
      · cases hx : falsyS ((Config.from_environment env).merge_request qp).group_id
        · rfl
        · rw [hx] at hval; simp at hval
      · cases hx : falsyS ((Config.from_environment env).merge_request qp).key
        · rfl
        · rw [hx] at hval; simp at hval
    rw [if_pos hval]
    constructor
    · rw [hfields.1, hfields.2]
      constructor
      · intro hcontra
        by_cases hcol : (!falsyS qp.collection_id) = true
        · rw [if_pos hcol] at hcontra; simp at hcontra
        · rw [if_neg hcol] at hcontra
          by_cases hpath : path = []
          · rw [if_pos hpath] at hcontra; simp at hcontra
          · rw [if_neg hpath] at hcontra
            cases hres : resolve path <;> rw [hres] at hcontra <;>
              simp at hcontra
      · intro hcontra
        rcases hcontra with hx | hx <;> simp at hx
    · intro _ _
      by_cases hcol : (!falsyS qp.collection_id) = true
      · rw [if_pos hcol]; exact ⟨_, rfl⟩
      · rw [if_neg hcol]
        by_cases hpath : path = []
        · rw [if_pos hpath]; exact ⟨_, rfl⟩
        · rw [if_neg hpath]
          cases hres : resolve path <;> exact ⟨_, rfl⟩
  · rw [if_neg hval]
    have hor : falsyS ((Config.from_environment env).merge_request qp).group_id
        = true ∨
        falsyS ((Config.from_environment env).merge_request qp).key = true := by
      unfold Config.is_valid at hval
      by_contra hcon
      rw [not_or] at hcon
      apply hval
      have h1 : falsyS ((Config.from_environment env).merge_request qp).group_id
          = false := by
        cases hx : falsyS ((Config.from_environment env).merge_request qp).group_id
        · rfl
        · exact absurd hx hcon.1
      have h2 : falsyS ((Config.from_environment env).merge_request qp).key
          = false := by
        cases hx : falsyS ((Config.from_environment env).merge_request qp).key
        · rfl
        · exact absurd hx hcon.2
      rw [h1, h2]
      rfl
    refine ⟨⟨fun _ => hor, fun _ => rfl⟩, ?_⟩
    intro h1 h2
    exfalso
    apply hval
    unfold Config.is_valid
    rw [h1, h2]
    rfl

/-- Witness for C9: with merged id and key present and an unknown
output format, the update succeeds. -/
theorem update_from_request_invalid_iff_witness :
    ∃ c, Config.update_from_request
      (Config.from_environment
        ⟨some (strL "G0"), none, some (strL "K0"), some (strL "weird"), none⟩)
      [] ⟨none, none, none, none, none⟩ (fun _ => none) = .ok c := by
  refine (update_from_request_invalid_iff
    ⟨some (strL "G0"), none, some (strL "K0"), some (strL "weird"), none⟩
    [] ⟨none, none, none, none, none⟩ (fun _ => none)).2 ?_ ?_ <;> decide

/-! ### Lemmas about `splitGo` -/

theorem splitGo_nil (sep : LC) (k : Nat) : splitGo sep k [] = [[]] := by
  cases k <;> rfl

theorem splitGo_succ (sep : LC) (k : Nat) (c : Char) (rest : LC) :
    splitGo sep (k + 1) (c :: rest) = splitGo sep k rest := rfl

theorem splitGo_skip (sep : LC) (x t : LC) :
    splitGo sep x.length (x ++ t) = splitGo sep 0 t := by
  induction x with
  | nil => rfl
  | cons c x ih => simpa [splitGo_succ] using ih

theorem splitGo_cons_of_not_pre (sep : LC) (c : Char) (rest : LC)
    (h : ¬ sep <+: (c :: rest)) (hd : LC) (tl : List LC)
    (heq : splitGo sep 0 rest = hd :: tl) :
    splitGo sep 0 (c :: rest) = (c :: hd) :: tl := by
  have hb : sep.isPrefixOf (c :: rest) = false := by
    rw [← Bool.not_eq_true, List.isPrefixOf_iff_prefix]
    exact h
  simp [splitGo, hb, heq]

theorem splitGo_match (sep : LC) (hne : sep ≠ []) (t : LC) :
    splitGo sep 0 (sep ++ t) = [] :: splitGo sep 0 t := by
  cases sep with
  | nil => exact absurd rfl hne
  | cons a sep1 =>
    have hpre : (a :: sep1).isPrefixOf (a :: (sep1 ++ t)) = true := by
      rw [ List.isPrefixOf_iff_prefix]
      exact List.prefix_append (a :: sep1) t
    have : splitGo (a :: sep1) 0 ((a :: sep1) ++ t) =
        [] :: splitGo (a :: sep1) ((a :: sep1).length - 1) (sep1 ++ t) := by
      simp [splitGo, hpre]
    rw [this]
    have hlen : (a :: sep1).length - 1 = sep1.length := by simp
    rw [hlen, splitGo_skip]

theorem splitGo_head_pre (sep : LC) :
    ∀ s, ∃ hd tl, splitGo sep 0 s = hd :: tl ∧ hd <+: s := by
  intro s
  induction s with
  | nil => exact ⟨[], [], by rfl, List.nil_prefix⟩
  | cons c rest ih =>
    by_cases hb : sep.isPrefixOf (c :: rest) = true
    · refine ⟨[], splitGo sep (sep.length - 1) rest, ?_, List.nil_prefix⟩
      simp [splitGo, hb]
    · obtain ⟨hd, tl, heq, hpre⟩ := ih
      have hnp : ¬ sep <+: (c :: rest) := by
        rw [← List.isPrefixOf_iff_prefix]
        exact fun e => hb e
      refine ⟨c :: hd, tl, splitGo_cons_of_not_pre sep c rest hnp hd tl heq, ?_⟩
      exact List.cons_prefix_cons.mpr ⟨rfl, hpre⟩

theorem pre_of_append_of_le {α : Type} {l x y : List α} (h : l <+: x ++ y)
    (hlen : l.length ≤ x.length) : l <+: x :=
  List.prefix_of_prefix_length_le h (List.prefix_append x y) hlen

theorem not_pre_of_sep (sep p t : LC) (hno : noOverlap sep) (hne : sep ≠ [])
    (hinf : ¬ sep <:+: p) (hp : p ≠ []) : ¬ sep <+: (p ++ (sep ++ t)) := by
  intro hcon
  by_cases hlen : sep.length ≤ p.length
  · exact hinf (pre_of_append_of_le hcon hlen).isInfix
  · push_neg at hlen
    have hps : p <+: sep :=
      List.prefix_of_prefix_length_le (List.prefix_append p (sep ++ t)) hcon
        (Nat.le_of_lt hlen)
    obtain ⟨q, hq⟩ := hps
    have hq2 : q <+: sep ++ t := by
      obtain ⟨r, hr⟩ := hcon
      have hr2 : p ++ (q ++ r) = p ++ (sep ++ t) := by
        rw [← List.append_assoc, hq]
        exact hr
      exact ⟨r, List.append_cancel_left hr2⟩
    have hqlen : q.length ≤ sep.length := by
      have := congrArg List.length hq
      simp at this
      omega
    have hq3 : q <+: sep := pre_of_append_of_le hq2 hqlen
    have h1 : q = sep.take q.length := List.prefix_iff_eq_take.mp hq3
    have h2 : sep.drop p.length = q := by
      rw [← hq]
      exact List.drop_left p q
    have hql : q.length = sep.length - p.length := by
      have := congrArg List.length hq
      simp at this
      omega
    apply hno p.length
    · have := congrArg List.length hq
      simp at this
      omega
    · exact List.length_pos.mpr hp
    · rw [← hql, ← h1, h2]

theorem splitGo_append_sep (sep : LC) (hno : noOverlap sep) (hne : sep ≠ []) :
    ∀ p t, ¬ sep <:+: p →
      splitGo sep 0 (p ++ sep ++ t) = p :: splitGo sep 0 t := by
  intro p
  induction p with
  | nil =>
    intro t _
    simpa using splitGo_match sep hne t
  | cons c p1 ih =>
    intro t hinf
    have hinf1 : ¬ sep <:+: p1 := fun h => hinf (List.infix_cons h)
    have heq : splitGo sep 0 (p1 ++ sep ++ t) = p1 :: splitGo sep 0 t :=
      ih t hinf1
    have hgoal : (c :: p1) ++ sep ++ t = c :: (p1 ++ sep ++ t) := by simp
    rw [hgoal]
    apply splitGo_cons_of_not_pre sep c (p1 ++ sep ++ t) ?_ p1
      (splitGo sep 0 t) heq
    have := not_pre_of_sep sep (c :: p1) t hno hne hinf (by simp)
    intro hcon
    apply this
    have : (c :: p1) ++ (sep ++ t) = c :: (p1 ++ sep ++ t) := by simp
    rw [this]
    exact hcon

theorem splitGo_no_occ (sep : LC) (hne : sep ≠ []) :
    ∀ s, ¬ sep <:+: s → splitGo sep 0 s = [s] := by
  intro s
  induction s with
  | nil => intro _; rfl
  | cons c rest ih =>
    intro hinf
    have hrest : ¬ sep <:+: rest := fun h => hinf (List.infix_cons h)
    have hnp : ¬ sep <+: (c :: rest) := fun h => hinf h.isInfix
    exact splitGo_cons_of_not_pre sep c rest hnp rest [] (ih hrest)

theorem splitGo_join (sep : LC) (hno : noOverlap sep) (hne : sep ≠ []) :
    ∀ parts, parts ≠ [] → (∀ p ∈ parts, ¬ sep <:+: p) →
      splitGo sep 0 (joinSep sep parts) = parts := by
  intro parts
  induction parts with
  | nil => intro h _; exact absurd rfl h
  | cons p rest ih =>
    intro _ hfree
    cases rest with
    | nil =>
      exact splitGo_no_occ sep hne p (hfree p (by simp))
    | cons q rest1 =>
      have hj : joinSep sep (p :: q :: rest1) =
          p ++ sep ++ joinSep sep (q :: rest1) := rfl
      rw [hj, splitGo_append_sep sep hno hne p _ (hfree p (by simp))]
      rw [ih (by simp) (fun x hx => hfree x (by simp [hx]))]

theorem frags_no_occ (sep : LC) (hne : sep ≠ []) :
    ∀ n s, s.length ≤ n → ∀ f ∈ splitGo sep 0 s, ¬ sep <:+: f := by
  intro n
  induction n with
  | zero =>
    intro s hs f hf
    have : s = [] := List.length_eq_zero.mp (Nat.le_zero.mp hs)
    subst this
    have : f = [] := by
      rw [splitGo_nil] at hf
      simpa using hf
    subst this
    intro hcon
    exact hne (List.infix_nil.mp hcon)
  | succ n ih =>
    intro s hs f hf
    cases s with
    | nil =>
      have : f = [] := by
        rw [splitGo_nil] at hf
        simpa using hf
      subst this
      intro hcon
      exact hne (List.infix_nil.mp hcon)
    | cons c rest =>
      by_cases hb : sep <+: (c :: rest)
      · obtain ⟨t, ht⟩ := hb
        rw [← ht, splitGo_match sep hne t] at hf
        rcases List.mem_cons.mp hf with hf1 | hf2
        · subst hf1
          intro hcon
          exact hne (List.infix_nil.mp hcon)
        · apply ih t ?_ f hf2
          have hlens := congrArg List.length ht
          simp at hlens hs
          have hsep : 1 ≤ sep.length :=
            List.length_pos.mpr hne
          omega
      · obtain ⟨hd, tl, heq, hpre⟩ := splitGo_head_pre sep rest
        rw [splitGo_cons_of_not_pre sep c rest hb hd tl heq] at hf
        have hlen : rest.length ≤ n := by
          simp at hs
          omega
        rcases List.mem_cons.mp hf with hf1 | hf2
        · subst hf1
          intro hcon
          rcases List.infix_cons_iff.mp hcon with hp | hi
          · exact hb (hp.trans (List.cons_prefix_cons.mpr ⟨rfl, hpre⟩))
          · exact ih rest hlen hd (by rw [heq]; simp) hi
        · exact ih rest hlen f (by rw [heq]; simp [hf2])

theorem pySplit_frags (sep : LC) (hne : sep ≠ []) (s : LC) :
    ∀ f ∈ pySplit sep s, ¬ sep <:+: f :=
  frags_no_occ sep hne s.length s Nat.le.refl

/-! ### Lemmas about `trimL` -/

theorem dropWhile_head_false {α : Type} (p : α → Bool) :
    ∀ (l : List α) (c : α), (l.dropWhile p).head? = some c → p c = false := by
  intro l
  induction l with
  | nil => intro c h; simp at h
  | cons a l ih =>
    intro c h
    by_cases ha : p a = true
    · rw [List.dropWhile_cons_of_pos ha] at h
      exact ih c h
    · rw [List.dropWhile_cons_of_neg (by simpa using ha)] at h
      have : a = c := by simpa using h
      subst this
      simpa using ha

theorem dropWhile_dropWhile {α : Type} (p : α → Bool) (l : List α) :
    (l.dropWhile p).dropWhile p = l.dropWhile p := by
  induction l with
  | nil => rfl
  | cons a l ih =>
    by_cases ha : p a = true
    · rw [List.dropWhile_cons_of_pos ha]
      exact ih
    · rw [List.dropWhile_cons_of_neg (by simpa using ha),
        List.dropWhile_cons_of_neg (by simpa using ha)]

theorem trimLeft_trimLeft (l : LC) : trimLeft (trimLeft l) = trimLeft l :=
  dropWhile_dropWhile pyIsSpace l

theorem trimLeft_suf (l : LC) : trimLeft l <:+ l := List.dropWhile_suffix _

theorem trimRight_pre (l : LC) : trimRight l <+: l := by
  have h : l.reverse.dropWhile pyIsSpace <:+ l.reverse :=
    List.dropWhile_suffix _
  have h2 := List.reverse_prefix.mpr h
  rw [List.reverse_reverse] at h2
  exact h2

theorem trimRight_reverse_eq (l : LC) :
    trimRight l = (trimLeft l.reverse).reverse := rfl

theorem trimRight_trimRight (l : LC) : trimRight (trimRight l) = trimRight l := by
  rw [trimRight_reverse_eq, trimRight_reverse_eq, List.reverse_reverse,
    trimLeft_trimLeft]

theorem head_of_pre {α : Type} {y x : List α} (h : y <+: x) (c : α) (t : List α)
    (hy : y = c :: t) : ∃ t2, x = c :: t2 := by
  obtain ⟨r, hr⟩ := h
  subst hy
  exact ⟨t ++ r, by rw [← hr]; simp⟩

theorem trimLeft_eq_self_of_head (l : LC) (c : Char) (hh : l.head? = some c)
    (hc : pyIsSpace c = false) : trimLeft l = l := by
  cases l with
  | nil => rfl
  | cons a t =>
    have : a = c := by simpa using hh
    subst this
    exact List.dropWhile_cons_of_neg (by simp [hc])

theorem trimRight_eq_self_of_last (l : LC) (c : Char) (hlast : l.getLast? = some c)
    (hc : pyIsSpace c = false) : trimRight l = l := by
  have hrev : l.reverse.head? = some c := by
    rw [List.head?_reverse]
    exact hlast
  rw [trimRight_reverse_eq, trimLeft_eq_self_of_head l.reverse c hrev hc,
    List.reverse_reverse]

theorem trimL_eq_self_of (l : LC) (h1 : trimLeft l = l) (h2 : trimRight l = l) :
    trimL l = l := by
  unfold trimL
  rw [h1, h2]

theorem trimL_trimL (l : LC) : trimL (trimL l) = trimL l := by
  unfold trimL
  have h1 : trimLeft (trimRight (trimLeft l)) = trimRight (trimLeft l) := by
    cases he : trimRight (trimLeft l) with
    | nil => rfl
    | cons c t =>
      obtain ⟨t2, hx2⟩ := head_of_pre (trimRight_pre (trimLeft l)) c t he
      have hc : pyIsSpace c = false := by
        apply dropWhile_head_false pyIsSpace l c
        show (trimLeft l).head? = some c
        rw [hx2]
        rfl
      rw [← he]
      apply trimLeft_eq_self_of_head _ c _ hc
      rw [he]
      rfl
  rw [h1, trimRight_trimRight]

theorem trim_decomp (l : LC) (h : trimL l = l) :
    trimLeft l = l ∧ trimRight l = l := by
  have hsuf : trimLeft l <:+ l := trimLeft_suf l
  have hpre : trimRight (trimLeft l) <+: trimLeft l := trimRight_pre _
  have hlen : (trimRight (trimLeft l)).length = l.length := by
    have := congrArg List.length h
    simpa [trimL] using this
  have l1 : (trimLeft l).length ≤ l.length := hsuf.sublist.length_le
  have l2 : (trimRight (trimLeft l)).length ≤ (trimLeft l).length :=
    hpre.sublist.length_le
  have e1 : trimLeft l = l := hsuf.sublist.eq_of_length (by omega)
  refine ⟨e1, ?_⟩
  have h2 : trimRight (trimLeft l) = l := h
  rw [e1] at h2
  exact h2

theorem trimmed_head_not_ws (e : LC) (h : trimL e = e) (c : Char)
    (hh : e.head? = some c) : pyIsSpace c = false := by
  apply dropWhile_head_false pyIsSpace e c
  show (trimLeft e).head? = some c
  rw [(trim_decomp e h).1]
  exact hh

theorem trimmed_last_not_ws (e : LC) (h : trimL e = e) (c : Char)
    (hlast : e.getLast? = some c) : pyIsSpace c = false := by
  have h2 : trimLeft e.reverse = e.reverse := by
    have := (trim_decomp e h).2
    rw [trimRight_reverse_eq] at this
    have := congrArg List.reverse this
    rwa [List.reverse_reverse] at this
  apply dropWhile_head_false pyIsSpace e.reverse c
  show (trimLeft e.reverse).head? = some c
  rw [h2, List.head?_reverse]
  exact hlast

theorem trim_cons_at (e : LC) (h : trimL e = e) (hne : e ≠ []) :
    trimL ('@' :: e) = '@' :: e := by
  apply trimL_eq_self_of
  · exact List.dropWhile_cons_of_neg (by decide)
  · cases e with
    | nil => exact absurd rfl hne
    | cons x t =>
      have hc := List.getLast?_eq_getLast (x :: t) (by simp)
      apply trimRight_eq_self_of_last _ ((x :: t).getLast (by simp))
      · rw [List.getLast?_cons_cons]
        exact hc
      · exact trimmed_last_not_ws (x :: t) h _ hc

/-! ### Lemmas about `normalizeFrag`, `bibKey`, `keepFirst` and
`dedupGo` -/

theorem singleton_infix_iff (c : Char) (s : LC) : [c] <:+: s ↔ c ∈ s := by
  constructor
  · rintro ⟨pre, post, h⟩
    rw [← h]
    simp
  · intro h
    obtain ⟨pre, post, h⟩ := List.append_of_mem h
    exact ⟨pre, post, by rw [h]; simp⟩

theorem bibKey_none_of_no_brace (e : LC) (h : '\x7b' ∉ e) : bibKey e = none := by
  unfold bibKey
  have hsingle : pySplit ['\x7b'] e = [e] :=
    splitGo_no_occ _ (by decide) e (fun hc => h ((singleton_infix_iff _ _).mp hc))
  rw [hsingle]

theorem trimL_infix_self (l : LC) : trimL l <:+: l :=
  ((trimRight_pre (trimLeft l)).isInfix).trans (trimLeft_suf l).isInfix

theorem normalizeFrag_props (f e : LC) (h : normalizeFrag f = some e) :
    trimL e = e ∧ e.head? = some '@' ∧ (entrySep <:+: e → entrySep <:+: f) := by
  unfold normalizeFrag at h
  by_cases h0 : trimL f = []
  · rw [if_pos h0] at h
    simp at h
  · rw [if_neg h0] at h
    have he : e = if (trimL f).head? = some '@' then trimL f else '@' :: trimL f :=
      by simpa using h.symm
    by_cases hh : (trimL f).head? = some '@'
    · rw [if_pos hh] at he
      subst he
      exact ⟨trimL_trimL f, hh, fun hi => hi.trans (trimL_infix_self f)⟩
    · rw [if_neg hh] at he
      subst he
      refine ⟨trim_cons_at (trimL f) (trimL_trimL f) h0, rfl, ?_⟩
      intro hi
      rcases List.infix_cons_iff.mp hi with hp | hi2
      · exfalso
        simp only [entrySep] at hp
        exact absurd (List.cons_prefix_cons.mp hp).1 (by decide)
      · exact hi2.trans (trimL_infix_self f)

theorem keepFirst_mem (x : LC) :
    ∀ (l seen : List LC), x ∈ keepFirst seen l ↔ (x ∈ l ∧ x ∉ seen) := by
  intro l
  induction l with
  | nil => intro seen; simp [keepFirst]
  | cons e rest ih =>
    intro seen
    by_cases he : e ∈ seen
    · rw [show keepFirst seen (e :: rest) = keepFirst seen rest by
        simp [keepFirst, he]]
      rw [ih seen]
      constructor
      · rintro ⟨hx, hs⟩
        exact ⟨List.mem_cons_of_mem _ hx, hs⟩
      · rintro ⟨hx, hs⟩
        rcases List.mem_cons.mp hx with rfl | hx2
        · exact absurd he hs
        · exact ⟨hx2, hs⟩
    · rw [show keepFirst seen (e :: rest) = e :: keepFirst (e :: seen) rest by
        simp [keepFirst, he]]
      constructor
      · intro hx
        rcases List.mem_cons.mp hx with rfl | hx2
        · exact ⟨List.mem_cons_self _ _, he⟩
        · obtain ⟨h1, h2⟩ := (ih (e :: seen)).mp hx2
          exact ⟨List.mem_cons_of_mem _ h1,
            fun hs => h2 (List.mem_cons_of_mem _ hs)⟩
      · rintro ⟨hx, hs⟩
        by_cases hxe : x = e
        · subst hxe
          exact List.mem_cons_self _ _
        · rcases List.mem_cons.mp hx with rfl | hx2
          · exact absurd rfl hxe
          · exact List.mem_cons_of_mem _ ((ih (e :: seen)).mpr
              ⟨hx2, by simp [hxe, hs]⟩)

theorem dedupGo_keepFirst :
    ∀ (l keys seen es : List LC), dedupGo keys seen l = some es →
      es = keepFirst seen (l.filterMap normalizeFrag) := by
  intro l
  induction l with
  | nil =>
    intro keys seen es h
    have : es = [] := by simpa [dedupGo] using h.symm
    subst this
    simp [keepFirst]
  | cons f rest ih =>
    intro keys seen es h
    cases hn : normalizeFrag f with
    | none =>
      simp only [dedupGo, hn] at h
      simp only [List.filterMap_cons, hn]
      exact ih keys seen es h
    | some e =>
      simp only [dedupGo, hn] at h
      simp only [List.filterMap_cons, hn]
      cases hk : bibKey e with
      | none => simp only [hk] at h; simp at h
      | some k =>
        simp only [hk] at h
        by_cases hmem : e ∈ seen
        · rw [if_pos hmem] at h
          rw [show keepFirst seen (e :: rest.filterMap normalizeFrag) =
            keepFirst seen (rest.filterMap normalizeFrag) by
              simp [keepFirst, hmem]]
          exact ih keys seen es h
        · rw [if_neg hmem] at h
          cases hrec : dedupGo (k :: keys) (e :: seen) rest with
          | none => simp only [hrec] at h; simp at h
          | some res =>
            simp only [hrec] at h
            have hes : es = e :: res := by simpa using h.symm
            subst hes
            rw [show keepFirst seen (e :: rest.filterMap normalizeFrag) =
              e :: keepFirst (e :: seen) (rest.filterMap normalizeFrag) by
                simp [keepFirst, hmem]]
            rw [ih _ _ _ hrec]

theorem dedupGo_sound :
    ∀ (l keys seen es : List LC), (∀ f ∈ l, ¬ entrySep <:+: f) →
      dedupGo keys seen l = some es →
      es.Nodup ∧ ∀ e ∈ es, trimL e = e ∧ e.head? = some '@' ∧
        (bibKey e).isSome = true ∧ ¬ entrySep <:+: e ∧ e ∉ seen := by
  intro l
  induction l with
  | nil =>
    intro keys seen es _ h
    have : es = [] := by simpa [dedupGo] using h.symm
    subst this
    simp
  | cons f rest ih =>
    intro keys seen es hfree h
    have hfree1 : ∀ g ∈ rest, ¬ entrySep <:+: g :=
      fun g hg => hfree g (List.mem_cons_of_mem _ hg)
    cases hn : normalizeFrag f with
    | none =>
      simp only [dedupGo, hn] at h
      exact ih keys seen es hfree1 h
    | some e =>
      simp only [dedupGo, hn] at h
      obtain ⟨htrim, hhead, htrans⟩ := normalizeFrag_props f e hn
      have hefree : ¬ entrySep <:+: e :=
        fun hi => hfree f (List.mem_cons_self _ _) (htrans hi)
      cases hk : bibKey e with
      | none => simp only [hk] at h; simp at h
      | some k =>
        simp only [hk] at h
        by_cases hmem : e ∈ seen
        · rw [if_pos hmem] at h
          exact ih keys seen es hfree1 h
        · rw [if_neg hmem] at h
          cases hrec : dedupGo (k :: keys) (e :: seen) rest with
          | none => simp only [hrec] at h; simp at h
          | some res =>
            simp only [hrec] at h
            have hes : es = e :: res := by simpa using h.symm
            subst hes
            obtain ⟨hnodup, hprops⟩ := ih _ _ _ hfree1 hrec
            constructor
            · refine List.nodup_cons.mpr ⟨?_, hnodup⟩
              intro hcon
              exact (hprops e hcon).2.2.2.2 (List.mem_cons_self _ _)
            · intro x hx
              rcases List.mem_cons.mp hx with rfl | hx2
              · exact ⟨htrim, hhead, by rw [hk]; rfl, hefree, hmem⟩
              · obtain ⟨p1, p2, p3, p4, p5⟩ := hprops x hx2
                exact ⟨p1, p2, p3, p4, fun hs => p5 (List.mem_cons_of_mem _ hs)⟩

theorem dedupGo_bad :
    ∀ (l keys seen : List LC),
      (∃ f ∈ l, ∃ e, normalizeFrag f = some e ∧ bibKey e = none) →
      dedupGo keys seen l = none := by
  intro l
  induction l with
  | nil =>
    intro keys seen h
    obtain ⟨f, hf, _⟩ := h
    simp at hf
  | cons g rest ih =>
    intro keys seen h
    obtain ⟨f, hf, e, hn, hk⟩ := h
    rcases List.mem_cons.mp hf with rfl | hf2
    · simp only [dedupGo, hn, hk]
    · cases hng : normalizeFrag g with
      | none =>
        simp only [dedupGo, hng]
        exact ih keys seen ⟨f, hf2, e, hn, hk⟩
      | some e2 =>
        simp only [dedupGo, hng]
        cases hk2 : bibKey e2 with
        | none => rfl
        | some k2 =>
          show (if e2 ∈ seen then dedupGo keys seen rest
            else match dedupGo (k2 :: keys) (e2 :: seen) rest with
              | none => none
              | some res => some (e2 :: res)) = none
          by_cases hmem : e2 ∈ seen
          · rw [if_pos hmem]
            exact ih keys seen ⟨f, hf2, e, hn, hk⟩
          · rw [if_neg hmem, ih (k2 :: keys) (e2 :: seen) ⟨f, hf2, e, hn, hk⟩]

theorem splitGo_ne_nil (sep : LC) : ∀ (s : LC) (k : Nat), splitGo sep k s ≠ [] := by
  intro s
  induction s with
  | nil => intro k; rw [splitGo_nil]; simp
  | cons c rest ih =>
    intro k
    cases k with
    | succ k2 => rw [splitGo_succ]; exact ih k2
    | zero =>
      by_cases hb : sep.isPrefixOf (c :: rest) = true
      · simp [splitGo, hb]
      · obtain ⟨hd, tl, heq, _⟩ := splitGo_head_pre sep rest
        rw [splitGo_cons_of_not_pre sep c rest
          (by rw [← List.isPrefixOf_iff_prefix]; exact fun e => hb e) hd tl heq]
        simp

theorem splitGo_two_of_occ (sep : LC) (hne : sep ≠ []) :
    ∀ s, sep <:+: s → ∃ h1 h2 t, splitGo sep 0 s = h1 :: h2 :: t := by
  intro s
  induction s with
  | nil =>
    intro hocc
    exact absurd (List.infix_nil.mp hocc) hne
  | cons c rest ih =>
    intro hocc
    by_cases hb : sep <+: (c :: rest)
    · obtain ⟨t, ht⟩ := hb
      rw [← ht, splitGo_match sep hne t]
      obtain ⟨h2, t2, heq2⟩ := List.exists_cons_of_ne_nil (splitGo_ne_nil sep t 0)
      exact ⟨[], h2, t2, by rw [heq2]⟩
    · have hrest : sep <:+: rest := by
        rcases List.infix_cons_iff.mp hocc with hp | hi
        · exact absurd hp hb
        · exact hi
      obtain ⟨h1, h2, t, heq⟩ := ih hrest
      exact ⟨c :: h1, h2, t,
        splitGo_cons_of_not_pre sep c rest hb h1 (h2 :: t) heq⟩

theorem bibKey_some_of_brace (e : LC) (h : '\x7b' ∈ e) :
    (bibKey e).isSome = true := by
  unfold bibKey
  obtain ⟨h1, h2, t, heq⟩ := splitGo_two_of_occ ['\x7b'] (by decide) e
    ((singleton_infix_iff _ _).mpr h)
  unfold pySplit
  rw [heq]
  rfl

theorem mem_dropWhile_of_not {α : Type} (p : α → Bool) (c : α)
    (hc : p c = false) : ∀ l : List α, c ∈ l → c ∈ l.dropWhile p := by
  intro l
  induction l with
  | nil => intro h; simp at h
  | cons a rest ih =>
    intro h
    by_cases ha : p a = true
    · rw [List.dropWhile_cons_of_pos ha]
      rcases List.mem_cons.mp h with rfl | h2
      · rw [ha] at hc; simp at hc
      · exact ih h2
    · rwa [List.dropWhile_cons_of_neg (by simpa using ha)]

theorem mem_trimL_of_not_space (c : Char) (hc : pyIsSpace c = false)
    (l : LC) (h : c ∈ l) : c ∈ trimL l := by
  have h1 : c ∈ trimLeft l := mem_dropWhile_of_not pyIsSpace c hc l h
  have h2 : c ∈ (trimLeft l).reverse := List.mem_reverse.mpr h1
  have h3 : c ∈ (trimLeft l).reverse.dropWhile pyIsSpace :=
    mem_dropWhile_of_not pyIsSpace c hc _ h2
  show c ∈ ((trimLeft l).reverse.dropWhile pyIsSpace).reverse
  exact List.mem_reverse.mpr h3

theorem normalizeFrag_eq (f e : LC) (h : normalizeFrag f = some e) :
    trimL f ≠ [] ∧ (e = trimL f ∨ e = '@' :: trimL f) := by
  unfold normalizeFrag at h
  by_cases h0 : trimL f = []
  · rw [if_pos h0] at h
    simp at h
  · rw [if_neg h0] at h
    refine ⟨h0, ?_⟩
    by_cases hh : (trimL f).head? = some '@'
    · left
      rw [if_pos hh] at h
      simpa using h.symm
    · right
      rw [if_neg hh] at h
      simpa using h.symm

theorem dedupGo_some_of_good :
    ∀ (l keys seen : List LC),
      (∀ f ∈ l, ∀ e, normalizeFrag f = some e → (bibKey e).isSome = true) →
      (dedupGo keys seen l).isSome = true := by
  intro l
  induction l with
  | nil => intro keys seen _; rfl
  | cons f rest ih =>
    intro keys seen hgood
    have hrest : ∀ g ∈ rest, ∀ e, normalizeFrag g = some e →
        (bibKey e).isSome = true :=
      fun g hg => hgood g (List.mem_cons_of_mem _ hg)
    cases hn : normalizeFrag f with
    | none =>
      simp only [dedupGo, hn]
      exact ih keys seen hrest
    | some e =>
      simp only [dedupGo, hn]
      obtain ⟨k, hk⟩ := Option.isSome_iff_exists.mp
        (hgood f (List.mem_cons_self _ _) e hn)
      simp only [hk]
      by_cases hmem : e ∈ seen
      · rw [if_pos hmem]
        exact ih keys seen hrest
      · rw [if_neg hmem]
        have hsome := ih (k :: keys) (e :: seen) hrest
        cases hrec : dedupGo (k :: keys) (e :: seen) rest with
        | none => rw [hrec] at hsome; simp at hsome
        | some res => simp only [hrec]; rfl

theorem dedupGo_replay :
    ∀ (ts keys seen : List LC),
      (∀ t ∈ ts, t ≠ [] ∧ trimL t = t ∧ t.head? ≠ some '@' ∧
        (bibKey ('@' :: t)).isSome = true ∧ ('@' :: t) ∉ seen) →
      (ts.map (fun t => '@' :: t)).Nodup →
      dedupGo keys seen ts = some (ts.map (fun t => '@' :: t)) := by
  intro ts
  induction ts with
  | nil => intro keys seen _ _; simp [dedupGo]
  | cons t rest ih =>
    intro keys seen hprops hnd
    obtain ⟨hne, htrim, hhead, hsome, hseen⟩ := hprops t (List.mem_cons_self _ _)
    have hn : normalizeFrag t = some ('@' :: t) := by
      unfold normalizeFrag
      rw [htrim, if_neg hne, if_neg hhead]
    simp only [dedupGo, hn]
    obtain ⟨k, hk⟩ := Option.isSome_iff_exists.mp hsome
    simp only [hk]
    rw [if_neg hseen]
    have hnd2 : ('@' :: t) ∉ (rest.map (fun t => '@' :: t)) ∧
        (rest.map (fun t => '@' :: t)).Nodup := by
      rw [List.map_cons] at hnd
      exact List.nodup_cons.mp hnd
    have hrec : dedupGo (k :: keys) (('@' :: t) :: seen) rest =
        some (rest.map (fun t => '@' :: t)) := by
      apply ih
      · intro t2 ht2
        obtain ⟨q1, q2, q3, q4, q5⟩ := hprops t2 (List.mem_cons_of_mem _ ht2)
        refine ⟨q1, q2, q3, q4, ?_⟩
        intro hcon
        rcases List.mem_cons.mp hcon with heq | hmem2
        · exact hnd2.1 (by rw [← heq]; exact List.mem_map_of_mem _ ht2)
        · exact q5 hmem2
      · exact hnd2.2
    simp only [hrec]
    simp

theorem joinSep_shift :
    ∀ (rest : List LC) (x : LC), x.head? = some '@' →
      (∀ y ∈ rest, y.head? = some '@') →
      joinSep nl2 (x :: rest) =
        '@' :: joinSep entrySep (x.drop 1 :: rest.map (fun y => y.drop 1)) := by
  intro rest
  induction rest with
  | nil =>
    intro x hx _
    cases x with
    | nil => simp at hx
    | cons c t =>
      have : c = '@' := by simpa using hx
      subst this
      rfl
  | cons y r2 ih =>
    intro x hx hall
    have hy := hall y (List.mem_cons_self _ _)
    have ihy := ih y hy (fun z hz => hall z (List.mem_cons_of_mem _ hz))
    cases x with
    | nil => simp at hx
    | cons c t =>
      have : c = '@' := by simpa using hx
      subst this
      have hL : joinSep nl2 (('@' :: t) :: y :: r2) =
          ('@' :: t) ++ nl2 ++ joinSep nl2 (y :: r2) := rfl
      rw [hL, ihy]
      simp [entrySep, nl2, joinSep]

theorem joinSep_entry_join (e1 : LC) (rest : List LC)
    (hall : ∀ y ∈ rest, y.head? = some '@') :
    joinSep nl2 (e1 :: rest) =
      joinSep entrySep (e1 :: rest.map (fun y => y.drop 1)) := by
  cases rest with
  | nil => rfl
  | cons y r2 =>
    have hL : joinSep nl2 (e1 :: y :: r2) = e1 ++ nl2 ++ joinSep nl2 (y :: r2) :=
      rfl
    rw [hL, joinSep_shift r2 y (hall y (List.mem_cons_self _ _))
      (fun z hz => hall z (List.mem_cons_of_mem _ hz))]
    simp [entrySep, nl2, joinSep]

/-! ### Claim C1: deduplication -/

/-- C1 counterexample: `remove_duplicates` is not idempotent.  On
`"@x\x7ba,1\x7d\n\n@@ y\x7bb,2\x7d"` the first pass keeps the entry
`"@ y\x7bb,2\x7d"` verbatim (it already starts with `'@'`), but a second
pass splits it after the re-joined `"\n\n@"`, strips the now-leading
space and produces `"@y\x7bb,2\x7d"` — a different output. -/
theorem remove_duplicates_not_idem :
    remove_duplicates (strL "@x\x7ba,1\x7d\n\n@@ y\x7bb,2\x7d") =
      some (strL "@x\x7ba,1\x7d\n\n@ y\x7bb,2\x7d") ∧
    remove_duplicates (strL "@x\x7ba,1\x7d\n\n@ y\x7bb,2\x7d") =
      some (strL "@x\x7ba,1\x7d\n\n@y\x7bb,2\x7d") ∧
    strL "@x\x7ba,1\x7d\n\n@ y\x7bb,2\x7d" ≠
      strL "@x\x7ba,1\x7d\n\n@y\x7bb,2\x7d" :=
  ⟨by decide, by decide, by decide⟩

/-- C1 (amended): whenever `remove_duplicates` succeeds, its surviving
entries are exactly the first occurrences of the normalized fragments
(byte-identical later occurrences are dropped, and two entries sharing
a citation key but differing in text both survive); and it is
idempotent on every output each of whose fragments after the first
(splitting on `"\n\n@"`) starts with a character that is neither `'@'`
nor whitespace — without that proviso a second application can rewrite
an entry, as the counterexample shows. -/
theorem remove_duplicates_amended (b r : LC)
    (h : remove_duplicates b = some r) :
    (∃ es, dedupGo [] [] (pySplit entrySep b) = some es ∧
      es = keepFirst [] ((pySplit entrySep b).filterMap normalizeFrag) ∧
      r = joinSep nl2 es ∧
      (∀ e1 e2 : LC, e1 ∈ (pySplit entrySep b).filterMap normalizeFrag →
        e2 ∈ (pySplit entrySep b).filterMap normalizeFrag →
        bibKey e1 = bibKey e2 → e1 ≠ e2 → e1 ∈ es ∧ e2 ∈ es)) ∧
    ((∀ f ∈ (pySplit entrySep r).tail, goodTailFrag f = true) →
      remove_duplicates r = some r) := by
  unfold remove_duplicates at h
  cases hded : dedupGo [] [] (pySplit entrySep b) with
  | none => rw [hded] at h; simp at h
  | some es =>
    rw [hded] at h
    have hr : r = joinSep nl2 es := by simpa using h.symm
    have hchar := dedupGo_keepFirst _ [] [] es hded
    constructor
    · refine ⟨es, rfl, hchar, hr, ?_⟩
      intro e1 e2 h1 h2 _ _
      rw [hchar]
      exact ⟨(keepFirst_mem e1 _ []).mpr ⟨h1, by simp⟩,
             (keepFirst_mem e2 _ []).mpr ⟨h2, by simp⟩⟩
    · intro hgood
      obtain ⟨hnodup, hprops⟩ := dedupGo_sound _ [] [] es
        (pySplit_frags entrySep (by decide) b) hded
      cases es with
      | nil =>
        subst hr
        decide
      | cons e1 rest =>
        obtain ⟨ht1, hh1, hs1, hf1, _⟩ := hprops e1 (List.mem_cons_self _ _)
        have hne1 : e1 ≠ [] := by
          intro hcon
          rw [hcon] at hh1
          simp at hh1
        have hallrest : ∀ y ∈ rest, y.head? = some '@' :=
          fun y hy => (hprops y (List.mem_cons_of_mem _ hy)).2.1
        have hjoin : r = joinSep entrySep (e1 :: rest.map (fun y => y.drop 1)) := by
          rw [hr]
          exact joinSep_entry_join e1 rest hallrest
        have hsplit : pySplit entrySep r = e1 :: rest.map (fun y => y.drop 1) := by
          rw [hjoin]
          unfold pySplit
          apply splitGo_join entrySep (by decide) (by decide)
          · simp
          · intro p hp
            rcases List.mem_cons.mp hp with rfl | hp2
            · exact hf1
            · obtain ⟨y, hy, rfl⟩ := List.mem_map.mp hp2
              obtain ⟨_, hhy, _, hfy, _⟩ := hprops y (List.mem_cons_of_mem _ hy)
              intro hcon
              apply hfy
              cases y with
              | nil => simp at hhy
              | cons c0 t0 => exact List.infix_cons (by simpa using hcon)
        have hts : ∀ t ∈ rest.map (fun y => y.drop 1), goodTailFrag t = true := by
          intro t ht
          apply hgood
          rw [hsplit]
          simpa using ht
        have htprops : ∀ t ∈ rest.map (fun y => y.drop 1),
            t ≠ [] ∧ trimL t = t ∧ t.head? ≠ some '@' ∧
            (bibKey ('@' :: t)).isSome = true ∧ ('@' :: t) ∉ [e1] := by
          intro t ht
          have hgt : goodTailFrag t = true := hts t ht
          obtain ⟨y, hy, hdrop⟩ := List.mem_map.mp ht
          have hhy := hallrest y hy
          have hyform : y = '@' :: t := by
            cases y with
            | nil => simp at hhy
            | cons c0 t0 =>
              have hc0 : c0 = '@' := by simpa using hhy
              subst hc0
              have ht0 : t0 = t := by simpa using hdrop
              rw [ht0]
          subst hyform
          obtain ⟨hty, _, hsy, _, _⟩ := hprops ('@' :: t)
            (List.mem_cons_of_mem _ hy)
          cases t with
          | nil => simp [goodTailFrag] at hgt
          | cons c t1 =>
            have hgt2 : ¬(c = '@') ∧ pyIsSpace c = false := by
              simpa [goodTailFrag] using hgt
            have hlast := List.getLast?_eq_getLast ('@' :: c :: t1) (by simp)
            have hlws := trimmed_last_not_ws _ hty _ hlast
            have hlast2 : (c :: t1).getLast? =
                some (('@' :: c :: t1).getLast (by simp)) := by
              rw [← List.getLast?_cons_cons]
              exact hlast
            refine ⟨by simp, ?_, by simp [hgt2.1], hsy, ?_⟩
            · exact trimL_eq_self_of _
                (trimLeft_eq_self_of_head _ c rfl hgt2.2)
                (trimRight_eq_self_of_last _ _ hlast2 hlws)
            · have hynotmem : ('@' :: c :: t1) ≠ e1 := by
                intro hcon
                have he1 : e1 ∈ rest := by rw [← hcon]; exact hy
                exact (List.nodup_cons.mp hnodup).1 he1
              simp [hynotmem]
        have hmaps : (rest.map (fun y => y.drop 1)).map (fun t => '@' :: t) =
            rest := by
          rw [List.map_map]
          have hpt : ∀ y ∈ rest, ((fun t => '@' :: t) ∘ (fun y => y.drop 1)) y
              = id y := by
            intro y hy
            have := hallrest y hy
            cases y with
            | nil => simp at this
            | cons c0 t0 =>
              have : c0 = '@' := by simpa using this
              subst this
              rfl
          rw [List.map_congr_left hpt, List.map_id]
        have hn1 : normalizeFrag e1 = some e1 := by
          unfold normalizeFrag
          simp only [ht1]
          rw [if_neg hne1, if_pos hh1]
        obtain ⟨k, hk⟩ := Option.isSome_iff_exists.mp hs1
        have hreplay := dedupGo_replay (rest.map (fun y => y.drop 1)) [k] [e1]
          htprops (by rw [hmaps]; exact (List.nodup_cons.mp hnodup).2)
        unfold remove_duplicates
        rw [hsplit]
        simp only [dedupGo, hn1, hk]
        rw [if_neg (by simp)]
        rw [hreplay, hmaps]
        simp [hr]

/-- Witness for C1 (amended) at a bibliography with one byte-identical
duplicate and one key collision: dedup keeps the first copy and both
colliding entries, and a second application is the identity. -/
theorem remove_duplicates_amended_witness :
    remove_duplicates (strL "@x\x7ba,1\x7d\n\n@x\x7ba,1\x7d\n\n@y\x7ba,2\x7d") =
      some (strL "@x\x7ba,1\x7d\n\n@y\x7ba,2\x7d") ∧
    remove_duplicates (strL "@x\x7ba,1\x7d\n\n@y\x7ba,2\x7d") =
      some (strL "@x\x7ba,1\x7d\n\n@y\x7ba,2\x7d") := by
  refine ⟨by decide, ?_⟩
  exact (remove_duplicates_amended
    (strL "@x\x7ba,1\x7d\n\n@x\x7ba,1\x7d\n\n@y\x7ba,2\x7d")
    (strL "@x\x7ba,1\x7d\n\n@y\x7ba,2\x7d") (by decide)).2 (by decide)

/-! ### Claim C6: the GET handler on an unresolvable path -/

theorem mainHandler_status_200 (env : Env) (path : LC) (qp : QueryParams)
    (rc : Bool) (resolve : LC → Option LC) (children : List (LC × LC))
    (fetch : Option LC → LC) :
    (mainHandler env path qp rc resolve children fetch).status = 200 := by
  unfold mainHandler
  split
  · rfl
  · split
    · rfl
    · split <;> (dsimp only; split <;> rfl)

/-- C6 counterexample: on a path that fails to resolve even after the
(abstracted) forced refresh, a request with `remove_comments=true`
yields an *empty* body — status 200 and no bibliography entries, but
no collection-lookup-failure diagnostic either, contradicting the
claim that every such response carries the diagnostic. -/
theorem main_lookup_failed_counterexample :
    (mainHandler ⟨some (strL "G"), none, some (strL "K"), none, none⟩
      (strL "X") ⟨none, none, none, none, none⟩ true (fun _ => none) []
      (fun _ => [])).status = 200 ∧
    (mainHandler ⟨some (strL "G"), none, some (strL "K"), none, none⟩
      (strL "X") ⟨none, none, none, none, none⟩ true (fun _ => none) []
      (fun _ => [])).body = [] ∧
    ¬ (lookupFailMsg (strL "X") <:+:
      (mainHandler ⟨some (strL "G"), none, some (strL "K"), none, none⟩
        (strL "X") ⟨none, none, none, none, none⟩ true (fun _ => none) []
        (fun _ => [])).body) := by
  refine ⟨by decide, by decide, by decide⟩

/-- C6 (amended): on a failed collection lookup the handler always
responds with status 200, never consults the bibliography fetcher (no
whole-library fallback), and produces a body whose bibliography part is
empty; the collection-lookup-failure diagnostic is contained in the
body *unless* the `remove_comments` flag suppresses the log block, in
which case the body is entirely empty.  The handler's status is 200 on
every request (`mainHandler_status_200`). -/
theorem main_lookup_failed_amended (env : Env) (path : LC) (qp : QueryParams)
    (rc : Bool) (resolve : LC → Option LC) (children : List (LC × LC))
    (fetch fetch2 : Option LC → LC) (cfg : Config)
    (hok : Config.update_from_request (Config.from_environment env) path qp
      resolve = .ok cfg)
    (hfail : cfg.failed_collection_lookup = true) :
    (mainHandler env path qp rc resolve children fetch).status = 200 ∧
    mainHandler env path qp rc resolve children fetch =
      mainHandler env path qp rc resolve children fetch2 ∧
    (mainHandler env path qp rc resolve children fetch).body =
      (if rc then [] else
        indentLogs [strL "Using configuration:", strL "An error occurred",
          strL "ValueError: " ++ lookupFailMsg path] ++ nl2 ++ []) ∧
    (rc = false →
      lookupFailMsg path <:+:
        (mainHandler env path qp rc resolve children fetch).body) := by
  have hbody : ∀ f : Option LC → LC,
      mainHandler env path qp rc resolve children f =
        mkResp rc [strL "Using configuration:", strL "An error occurred",
          strL "ValueError: " ++ lookupFailMsg path] [] := by
    intro f
    unfold mainHandler
    simp only [hok]
    rw [if_pos hfail]
    rfl
  refine ⟨mainHandler_status_200 env path qp rc resolve children fetch,
    (hbody fetch).trans (hbody fetch2).symm, ?_, ?_⟩
  · rw [hbody fetch]
    cases rc <;> simp [mkResp, indentLogs]
  · intro hrc
    subst hrc
    rw [hbody fetch]
    show lookupFailMsg path <:+:
      indentLogs [strL "Using configuration:", strL "An error occurred",
        strL "ValueError: " ++ lookupFailMsg path] ++ nl2 ++ []
    refine ⟨(strL "% " ++ strL "Using configuration:" ++ ['\n']) ++
      (strL "% " ++ strL "An error occurred" ++ ['\n']) ++
      (strL "% " ++ strL "ValueError: "), ['\n'] ++ nl2 ++ [], ?_⟩
    simp [indentLogs, List.append_assoc]

/-- Witness for C6 (amended): a concrete request without
`remove_comments` whose body carries the diagnostic. -/
theorem main_lookup_failed_amended_witness :
    (mainHandler ⟨some (strL "G"), none, some (strL "K"), none, none⟩
      (strL "X") ⟨none, none, none, none, none⟩ false (fun _ => none) []
      (fun _ => [])).status = 200 ∧
    lookupFailMsg (strL "X") <:+:
      (mainHandler ⟨some (strL "G"), none, some (strL "K"), none, none⟩
        (strL "X") ⟨none, none, none, none, none⟩ false (fun _ => none) []
        (fun _ => [])).body := by
  have h := main_lookup_failed_amended
    ⟨some (strL "G"), none, some (strL "K"), none, none⟩ (strL "X")
    ⟨none, none, none, none, none⟩ false (fun _ => none) []
    (fun _ => []) (fun _ => [])
    { group_id := some (strL "G"), key := some (strL "K"),
      result_format := some (strL "bibtex"), collection_id := none,
      only_self := false, failed_collection_lookup := true, is_user := false }
    (by rfl) rfl
  exact ⟨h.1, h.2.2.2 rfl⟩

/-! ### Claim C10: partiality of deduplication -/

/-- C10 counterexample: a fragment with a `'\x7b'` but no `','` after it
does *not* raise — `"@y\x7bab\x7d"` is returned unchanged, its key being
everything after the brace; and when the key extraction *does* raise,
the swallowed exception leaves the raw concatenated text in the
response: the body still contains the entry `"@x\x7ba,1\x7d"`. -/
theorem remove_duplicates_partial_counterexample :
    remove_duplicates (strL "@y\x7bab\x7d") = some (strL "@y\x7bab\x7d") ∧
    (strL "@x\x7ba,1\x7d") <:+:
      (mainHandler ⟨some (strL "G"), none, some (strL "K"), none, none⟩ []
        ⟨none, none, none, none, none⟩ false (fun _ => none) []
        (fun _ => strL "hello\n\n@x\x7ba,1\x7d")).body :=
  ⟨by decide, by decide⟩

/-- C10 (amended): `remove_duplicates` raises if and only if some
fragment is non-empty after trimming and contains no `'\x7b'` at all —
in particular a fragment with `'\x7b'` but no `','` yields a key
without raising; the handler swallows the exception, and because the
assignment of the deduplicated value never happens, the response body
carries the raw un-deduplicated concatenation of the fetched
bibliographies rather than no entries. -/
theorem remove_duplicates_partial_amended :
    (∀ b : LC, remove_duplicates b = none ↔
      (∃ f ∈ pySplit entrySep b, trimL f ≠ [] ∧ '\x7b' ∉ f)) ∧
    (∀ (env : Env) (path : LC) (qp : QueryParams) (rc : Bool)
      (resolve : LC → Option LC) (children : List (LC × LC))
      (fetch : Option LC → LC) (cfg : Config),
      Config.update_from_request (Config.from_environment env) path qp resolve
        = .ok cfg →
      cfg.failed_collection_lookup = false →
      remove_duplicates (joinSep nl2 (fetch cfg.collection_id ::
        (if !cfg.only_self && cfg.collection_id.isSome then children
          else []).map (fun c => fetch (some c.2)))) = none →
      (mainHandler env path qp rc resolve children fetch).body =
        (if rc then
          joinSep nl2 (fetch cfg.collection_id ::
            (if !cfg.only_self && cfg.collection_id.isSome then children
              else []).map (fun c => fetch (some c.2)))
        else
          indentLogs [strL "Using configuration:", strL "An error occurred",
            strL "IndexError: list index out of range"] ++ nl2 ++
          joinSep nl2 (fetch cfg.collection_id ::
            (if !cfg.only_self && cfg.collection_id.isSome then children
              else []).map (fun c => fetch (some c.2))))) := by
  constructor
  · intro b
    constructor
    · intro hnone
      by_contra hcon
      push_neg at hcon
      have hgood : ∀ f ∈ pySplit entrySep b, ∀ e, normalizeFrag f = some e →
          (bibKey e).isSome = true := by
        intro f hf e hn
        obtain ⟨hne, hcase⟩ := normalizeFrag_eq f e hn
        have hbr : '\x7b' ∈ f := hcon f hf hne
        have hbr2 : '\x7b' ∈ trimL f :=
          mem_trimL_of_not_space _ (by decide) _ hbr
        have hbre : '\x7b' ∈ e := by
          rcases hcase with rfl | rfl
          · exact hbr2
          · exact List.mem_cons_of_mem _ hbr2
        exact bibKey_some_of_brace e hbre
      have hsome := dedupGo_some_of_good (pySplit entrySep b) [] [] hgood
      unfold remove_duplicates at hnone
      cases hd : dedupGo [] [] (pySplit entrySep b) with
      | none => rw [hd] at hsome; simp at hsome
      | some es => rw [hd] at hnone; simp at hnone
    · intro hbad
      obtain ⟨f, hf, hne, hnob⟩ := hbad
      unfold remove_duplicates
      rw [dedupGo_bad (pySplit entrySep b) [] [] ?_]
      · rfl
      · refine ⟨f, hf, ?_⟩
        have hnob2 : '\x7b' ∉ trimL f :=
          fun hmem => hnob ((trimL_infix_self f).mem hmem)
        by_cases hh : (trimL f).head? = some '@'
        · refine ⟨trimL f, ?_, bibKey_none_of_no_brace _ hnob2⟩
          unfold normalizeFrag
          rw [if_neg hne, if_pos hh]
        · refine ⟨'@' :: trimL f, ?_, bibKey_none_of_no_brace _ ?_⟩
          · unfold normalizeFrag
            rw [if_neg hne, if_neg hh]
          · intro hmem
            rcases List.mem_cons.mp hmem with heq | hmem2
            · exact absurd heq (by decide)
            · exact hnob2 hmem2
  · intro env path qp rc resolve children fetch cfg hok hnotfail hded
    unfold mainHandler
    simp only [hok]
    rw [if_neg (by rw [hnotfail]; exact Bool.false_ne_true)]
    simp only [hded]
    cases rc <;> simp [mkResp]

/-- Witness for C10 (amended): a brace-free fragment makes the dedup
raise, and a concrete request whose fetched text starts with a
brace-free fragment returns the raw concatenation in the body. -/
theorem remove_duplicates_partial_amended_witness :
    remove_duplicates (strL "hello") = none ∧
    (mainHandler ⟨some (strL "G"), none, some (strL "K"), none, none⟩ []
      ⟨none, none, none, none, none⟩ false (fun _ => none) []
      (fun _ => strL "hello\n\n@x\x7ba,1\x7d")).body =
      indentLogs [strL "Using configuration:", strL "An error occurred",
        strL "IndexError: list index out of range"] ++ nl2 ++
      strL "hello\n\n@x\x7ba,1\x7d" := by
  constructor
  · exact (remove_duplicates_partial_amended.1 (strL "hello")).mpr
      ⟨strL "hello", by decide, by decide, by decide⟩
  · have h := remove_duplicates_partial_amended.2
      ⟨some (strL "G"), none, some (strL "K"), none, none⟩ []
      ⟨none, none, none, none, none⟩ false (fun _ => none) []
      (fun _ => strL "hello\n\n@x\x7ba,1\x7d")
      { group_id := some (strL "G"), key := some (strL "K"),
        result_format := some (strL "bibtex"), collection_id := none,
        only_self := false, failed_collection_lookup := false,
        is_user := false }
      (by rfl) rfl (by decide)
    simpa using h

end ZoteroProxy
